import Mathlib

/-!
Shallow embedding of the streak/consistency engine of the void-tracker
habit app.  Calendar days are modelled as integers (one unit = one day);
the `YYYY-MM-DD` date keys of the source are in order-preserving bijection
with these day numbers, and all the source's date comparisons are
day-granular.  A habit's log set is a `List` of day numbers, mirroring the
arrays of log rows the source iterates over with `.some(...)` / `.filter(...)`.
-/

namespace VoidTracker

/-
Day numbers of calendar days (the source's `dateKey` values) are plain
integers throughout.
-/

/-- Habit type enum from the `habits` table (`type` column). -/
inductive HabitType where
  | positive
  | negative
deriving DecidableEq, Repr

/-! ### Habit-detail screen: `calculateStreak` (settings.tsx)

The source walks backward from `today` with a loop index `i`; the negative
branch runs `i = 0..365` (366 iterations), the positive branch `i = 0..364`
(365 iterations).  `fuel` counts the iterations that remain. -/

/-- One backward walk of the negative branch of `calculateStreak`:
break on a day before `creation`, break on a logged day (a relapse),
otherwise count the day and step back. -/
def calcNegAux (creation today : ℤ) (logs : List ℤ) : ℕ → ℕ → ℕ
  | _, 0 => 0
  | i, fuel + 1 =>
    if today - (i : ℤ) < creation then 0
    else if today - (i : ℤ) ∈ logs then 0
    else 1 + calcNegAux creation today logs (i + 1) fuel

/-- One backward walk of the positive branch of `calculateStreak`:
break before `creation`, count a logged day, break on an unlogged day
except when it is today (`i = 0`), which is skipped. -/
def calcPosAux (creation today : ℤ) (logs : List ℤ) : ℕ → ℕ → ℕ
  | _, 0 => 0
  | i, fuel + 1 =>
    if today - (i : ℤ) < creation then 0
    else if today - (i : ℤ) ∈ logs then 1 + calcPosAux creation today logs (i + 1) fuel
    else if 0 < i then 0
    else calcPosAux creation today logs (i + 1) fuel

/-- `calculateStreak` of the habit-detail screen (settings.tsx):
negative habits walk up to 366 days (`i <= 365`), positive habits up to
365 days (`i < 365`). -/
def calculateStreak : HabitType → ℤ → ℤ → List ℤ → ℕ
  | .negative, c, t, logs => calcNegAux c t logs 0 366
  | .positive, c, t, logs => calcPosAux c t logs 0 365

/-! ### Habit-detail screen: `longestStreak` (settings.tsx) -/

/-- Success predicate of the `longestStreak` scan: a logged day for a
positive habit, an unlogged day for a negative one. -/
def succDay : HabitType → List ℤ → ℤ → Bool
  | .positive, logs, d => decide (d ∈ logs)
  | .negative, logs, d => !decide (d ∈ logs)

/-- One iteration of the `longestStreak` loop on the state
`(maxStreak, currentStreak)`. -/
def lsStep (p : ℤ → Bool) (s : ℕ × ℕ) (d : ℤ) : ℕ × ℕ :=
  if p d then (max s.1 (s.2 + 1), s.2 + 1) else (s.1, 0)

/-- The `longestStreak` loop over a list of days. -/
def lsFold (p : ℤ → Bool) (days : List ℤ) (s : ℕ × ℕ) : ℕ × ℕ :=
  days.foldl (lsStep p) s

/-- The consecutive days `start, start+1, …, start+n-1`. -/
def dayRange (start : ℤ) (n : ℕ) : List ℤ :=
  (List.range n).map fun (i : ℕ) => start + (i : ℤ)

/-- `longestStreak` of the habit-detail screen: scan from the creation day
through today (inclusive), tracking a running streak and its maximum. -/
def longestStreakCalc (t : HabitType) (creation today : ℤ) (logs : List ℤ) : ℕ :=
  (lsFold (succDay t logs) (dayRange creation (today - creation + 1).toNat) (0, 0)).1

/-! ### Habit-detail screen: `chartData` (settings.tsx)

The rolling 7-day average series: for each day in the selected range the
fraction of the trailing 7 days (inclusive) with a log.  It reads no
creation day at all. -/

/-- `chartData`: one rolling average per day of the range, oldest first;
the day of entry `idx` is `today - (rangeDays - 1) + idx`. -/
def chartData (rangeDays : ℕ) (today : ℤ) (logs : List ℤ) : List ℚ :=
  (List.range rangeDays).map fun (idx : ℕ) =>
    let d : ℤ := today + (idx : ℤ) + 1 - (rangeDays : ℤ)
    (((List.range 7).filter fun (j : ℕ) => decide ((d - (j : ℤ)) ∈ logs)).length : ℚ) / 7

/-! ### Habit-detail screen: calendar classification (settings.tsx `renderCalendar`) -/

/-- Visual classification of one calendar cell. -/
inductive DayClass where
  | disabled
  | negFailure
  | negSuccess
  | posDone
  | posMiss
deriving DecidableEq, Repr

/-- Classification of day `d` in the month calendar: before-creation and
future days are disabled (their log state is never consulted); eligible
days get the habit-type-specific success/failure treatment. -/
def classifyDay (t : HabitType) (creation today d : ℤ) (logs : List ℤ) : DayClass :=
  if d < creation ∨ today < d then .disabled
  else match t with
    | .negative => if d ∈ logs then .negFailure else .negSuccess
    | .positive => if d ∈ logs then .posDone else .posMiss

/-- `canToggle` of the calendar: a day is tappable iff it is not in the
future and not before creation. -/
def canToggleDay (creation today d : ℤ) : Bool :=
  !decide (today < d) && !decide (d < creation)

/-! ### Habit store: `getHabitDetails` current streak (useHabitStore.ts)

The store's streak is a `while (true)` walk with no day cap and no
creation-day check: it runs while consecutive days are logged.  Every
counted day is a distinct member of the log list, so the walk stops within
`logs.length` steps; `fuel = logs.length + 1` therefore never runs out
before the natural break. -/

/-- The store's `while (hasLog)` backward walk, with explicit fuel. -/
def consecRunAux (logs : List ℤ) : ℤ → ℕ → ℕ
  | _, 0 => 0
  | d, fuel + 1 => if d ∈ logs then 1 + consecRunAux logs (d - 1) fuel else 0

/-- `currentStreak` of `useHabitStore.getHabitDetails`: if today is logged
walk back from today, else if yesterday is logged walk back from
yesterday, else 0. -/
def storeCurrentStreak (logs : List ℤ) (today : ℤ) : ℕ :=
  if today ∈ logs then consecRunAux logs today (logs.length + 1)
  else if today - 1 ∈ logs then consecRunAux logs (today - 1) (logs.length + 1)
  else 0

/-! ### Habit store: consistency score (useHabitStore.ts) -/

/-- `periodDays = min(30, max(1, daysSinceCreation))` where
`daysSinceCreation = (today - creation) + 1`. -/
def periodDays (creation today : ℤ) : ℤ :=
  min 30 (max 1 (today - creation + 1))

/-- `periodStart`: first day of the scoring window. -/
def periodStart (creation today : ℤ) : ℤ :=
  today - periodDays creation today + 1

/-- `effectiveStart`: the window start clamped to the creation day. -/
def effectiveStart (creation today : ℤ) : ℤ :=
  if periodStart creation today < creation then creation else periodStart creation today

/-- `logsInPeriod`: log rows dated between `effectiveStart` and today. -/
def logsInPeriod (creation today : ℤ) (logs : List ℤ) : ℕ :=
  (logs.filter fun l =>
    decide (effectiveStart creation today ≤ l) && decide (l ≤ today)).length

/-- JavaScript `Math.round(num / den)` for `den > 0`:
`⌊num/den + 1/2⌋`, ties rounding up. -/
def jsRound (num den : ℤ) : ℤ :=
  Int.fdiv (2 * num + den) (2 * den)

/-- Consistency score of `getHabitDetails`: completion fraction of the
window for positive habits, abstinence fraction for negative ones. -/
def consistencyScoreStore (t : HabitType) (creation today : ℤ) (logs : List ℤ) : ℤ :=
  match t with
  | .negative =>
      jsRound ((periodDays creation today - (logsInPeriod creation today logs : ℤ)) * 100)
        (periodDays creation today)
  | .positive =>
      jsRound ((logsInPeriod creation today logs : ℤ) * 100) (periodDays creation today)

/-- Result record of `getHabitDetails`. -/
structure DetailsResult where
  logs : List ℤ
  currentStreak : ℕ
  consistencyScore : ℤ
  totalCompletions : ℕ
deriving DecidableEq, Repr

/-- The pure computation of `getHabitDetails` on a fetched log list. -/
def getHabitDetailsCompute (t : HabitType) (creation today : ℤ) (logs : List ℤ) :
    DetailsResult :=
  { logs := logs
  , currentStreak := storeCurrentStreak logs today
  , consistencyScore := consistencyScoreStore t creation today logs
  , totalCompletions := logs.length }

/-- `getHabitDetails` including its `try/catch`: a data-access failure is
caught inside the store and replaced by an all-default result. -/
def getHabitDetails (fetched : Except String (List ℤ)) (t : HabitType)
    (creation today : ℤ) : DetailsResult :=
  match fetched with
  | .ok logs => getHabitDetailsCompute t creation today logs
  | .error _ => { logs := [], currentStreak := 0, consistencyScore := 0, totalCompletions := 0 }

/-! ### Habit store: sparkline (useHabitStore.ts `getHabitsWithSparkline`) -/

/-- The 7-entry sparkline `(hasLog, isBeforeCreation)` for days
`today-6 .. today`. -/
def sparkline (creation today : ℤ) (logs : List ℤ) : List (Bool × Bool) :=
  (List.range 7).map fun (i : ℕ) =>
    let d : ℤ := today - 6 + (i : ℤ)
    (decide (d ∈ logs), decide (d < creation))

/-- `getHabitsWithSparkline` with its `try/catch`: on a data-access
failure it returns the empty list instead of a per-habit result. -/
def getHabitsWithSparkline (fetched : Except String (List ℤ)) (creation today : ℤ) :
    List (List (Bool × Bool)) :=
  match fetched with
  | .ok logs => [sparkline creation today logs]
  | .error _ => []

/-! ### Habit store: `toggleHabit` (useHabitStore.ts, web branch) -/

/-- One row of the logs table (the `completedAt` timestamp is
informational only and not part of any computation). -/
structure LogEntry where
  id : ℕ
  habitId : ℕ
  dateKey : ℤ
deriving DecidableEq, Repr

/-- The `findIndex` predicate of `toggleHabit`. -/
def logMatches (h : ℕ) (d : ℤ) (l : LogEntry) : Bool :=
  l.habitId == h && l.dateKey == d

/-- `toggleHabit`: if a log for `(h, d)` exists remove the first such row
(`findIndex` + `splice`), else append a fresh row. -/
def toggleHabit (logs : List LogEntry) (h : ℕ) (d : ℤ) (freshId : ℕ) : List LogEntry :=
  if logs.any (logMatches h d) then logs.eraseP (logMatches h d)
  else logs ++ [⟨freshId, h, d⟩]

/-- The date keys of one habit's logs (the `habitLogs` filter of the
store's fetchers, projected to date keys). -/
def logDaysOf (logs : List LogEntry) (h : ℕ) : List ℤ :=
  (logs.filter fun l => l.habitId == h).map (·.dateKey)

/-- Modelled from the claim's words (C4): the number of consecutive logged
days ending at `d` — how many offsets `k = 0, 1, 2, …` in a row have day
`d - k` logged.  The run is scanned up to offset `logs.length`, which is
immaterial: a run of logged days consists of distinct log-list members, so
it can never be longer than `logs.length`. -/
def runLen (logs : List ℤ) (d : ℤ) : ℕ :=
  ((List.range (logs.length + 1)).takeWhile fun (k : ℕ) => decide ((d - (k : ℤ)) ∈ logs)).length

/-! ## Helper lemmas -/

theorem mem_dayRange {s : ℤ} {n : ℕ} {x : ℤ} :
    x ∈ dayRange s n ↔ s ≤ x ∧ x < s + n := by
  simp only [dayRange, List.mem_map, List.mem_range]
  constructor
  · rintro ⟨i, hi, rfl⟩
    omega
  · rintro ⟨h1, h2⟩
    exact ⟨(x - s).toNat, by omega, by omega⟩

theorem dayRange_append (s : ℤ) (a b : ℕ) :
    dayRange s (a + b) = dayRange s a ++ dayRange (s + a) b := by
  simp only [dayRange, List.range_add, List.map_append, List.map_map]
  refine congrArg _ (List.map_congr_left fun i _ => ?_)
  simp only [Function.comp_apply]
  push_cast
  ring

theorem jsRound_eq (num den q : ℤ) (hden : 0 < den)
    (h1 : q * (2 * den) ≤ 2 * num + den) (h2 : 2 * num + den < (q + 1) * (2 * den)) :
    jsRound num den = q := by
  unfold jsRound
  rw [Int.fdiv_eq_ediv _ (by omega)]
  have h3 : 2 * num + den = (2 * num + den - q * (2 * den)) + q * (2 * den) := by ring
  have h4 : (0 : ℤ) ≤ 2 * num + den - q * (2 * den) := by linarith
  have h5 : 2 * num + den - q * (2 * den) < 2 * den := by nlinarith
  rw [h3, Int.add_mul_ediv_right _ _ (by omega : (2 * den) ≠ 0),
    Int.ediv_eq_zero_of_lt h4 h5]
  ring

theorem periodDays_pos (c t : ℤ) : 1 ≤ periodDays c t := by
  unfold periodDays
  omega

theorem periodDays_le (c t : ℤ) : periodDays c t ≤ 30 := by
  unfold periodDays
  omega

theorem effectiveStart_ge (c t : ℤ) : c ≤ effectiveStart c t := by
  unfold effectiveStart
  split <;> omega

theorem calcNegAux_le (c t : ℤ) (logs : List ℤ) :
    ∀ fuel i, calcNegAux c t logs i fuel ≤ fuel := by
  intro fuel
  induction fuel with
  | zero => intro i; simp [calcNegAux]
  | succ f ih =>
    intro i
    rw [calcNegAux]
    split
    · omega
    split
    · omega
    · have := ih (i + 1)
      omega

theorem calcPosAux_le (c t : ℤ) (logs : List ℤ) :
    ∀ fuel i, calcPosAux c t logs i fuel ≤ fuel := by
  intro fuel
  induction fuel with
  | zero => intro i; simp [calcPosAux]
  | succ f ih =>
    intro i
    rw [calcPosAux]
    split
    · omega
    split
    · have := ih (i + 1); omega
    split
    · omega
    · have := ih (i + 1); omega

theorem calcNegAux_empty (c t : ℤ) :
    ∀ fuel i, calcNegAux c t [] i fuel = min fuel (t - (i : ℤ) - c + 1).toNat := by
  intro fuel
  induction fuel with
  | zero => intro i; simp [calcNegAux]
  | succ f ih =>
    intro i
    rw [calcNegAux]
    split
    · omega
    split
    · simp_all
    · rw [ih (i + 1)]
      push_cast
      omega

theorem calcNegAux_spec (c t : ℤ) (logs : List ℤ) :
    ∀ fuel i j, j < calcNegAux c t logs i fuel →
      c ≤ t - ((i : ℤ) + j) ∧ t - ((i : ℤ) + j) ∉ logs := by
  intro fuel
  induction fuel with
  | zero => intro i j h; simp [calcNegAux] at h
  | succ f ih =>
    intro i j h
    rw [calcNegAux] at h
    split at h
    · omega
    split at h
    · omega
    · rename_i hlt hmem
      match j with
      | 0 =>
        refine ⟨by push_cast; omega, by simpa using hmem⟩
      | j' + 1 =>
        have hrec := ih (i + 1) j' (by omega)
        have harg : t - ((i : ℤ) + ((j' + 1 : ℕ) : ℤ)) = t - (((i + 1 : ℕ) : ℤ) + (j' : ℤ)) := by
          push_cast; ring
        rw [harg]
        exact hrec

theorem calcPosAux_spec (c t : ℤ) (logs : List ℤ) :
    ∀ fuel i, 1 ≤ i → ∀ j, j < calcPosAux c t logs i fuel →
      c ≤ t - ((i : ℤ) + j) ∧ t - ((i : ℤ) + j) ∈ logs := by
  intro fuel
  induction fuel with
  | zero => intro i _ j h; simp [calcPosAux] at h
  | succ f ih =>
    intro i hi j h
    rw [calcPosAux] at h
    split at h
    · omega
    split at h
    · rename_i hlt hmem
      match j with
      | 0 =>
        refine ⟨by push_cast; omega, by simpa using hmem⟩
      | j' + 1 =>
        have hrec := ih (i + 1) (by omega) j' (by omega)
        have harg : t - ((i : ℤ) + ((j' + 1 : ℕ) : ℤ)) = t - (((i + 1 : ℕ) : ℤ) + (j' : ℤ)) := by
          push_cast; ring
        rw [harg]
        exact hrec
    split at h
    · omega
    · rename_i hlt hmem hpos
      omega

theorem lsFold_fst_le (p : ℤ → Bool) :
    ∀ (days : List ℤ) (s : ℕ × ℕ), s.1 ≤ (lsFold p days s).1 := by
  intro days
  induction days with
  | nil => intro s; simp [lsFold]
  | cons d ds ih =>
    intro s
    have h1 : s.1 ≤ (lsStep p s d).1 := by
      unfold lsStep
      split
      · exact le_max_left _ _
      · exact le_refl _
    calc s.1 ≤ (lsStep p s d).1 := h1
      _ ≤ (lsFold p ds (lsStep p s d)).1 := ih _
      _ = (lsFold p (d :: ds) s).1 := by simp [lsFold]

theorem lsFold_append (p : ℤ → Bool) (as bs : List ℤ) (s : ℕ × ℕ) :
    lsFold p (as ++ bs) s = lsFold p bs (lsFold p as s) := by
  simp [lsFold, List.foldl_append]

theorem lsFold_all_pos (p : ℤ → Bool) :
    ∀ (days : List ℤ) (mx cur : ℕ), (∀ d ∈ days, p d = true) →
      lsFold p days (mx, cur) =
        (if days.length = 0 then mx else max mx (cur + days.length), cur + days.length) := by
  intro days
  induction days with
  | nil => intro mx cur _; simp [lsFold]
  | cons d ds ih =>
    intro mx cur h
    have hd : p d = true := h d (by simp)
    have hrest : ∀ x ∈ ds, p x = true := fun x hx => h x (by simp [hx])
    have hstep : lsFold p (d :: ds) (mx, cur) = lsFold p ds (max mx (cur + 1), cur + 1) := by
      simp [lsFold, lsStep, hd]
    rw [hstep, ih _ _ hrest]
    rcases Nat.eq_zero_or_pos ds.length with h0 | hpos
    · simp [h0]
    · have hne : ds.length ≠ 0 := by omega
      simp only [hne, if_false, List.length_cons,
        show (d :: ds).length ≠ 0 from by simp]
      refine Prod.ext ?_ ?_ <;> simp <;> omega

/-- If some `n ≥ 1` consecutive days ending at `e` all lie in the scanned
range `start .. start+N-1` and all satisfy `p`, the `longestStreak` scan
over that range returns at least `n`. -/
theorem lsFold_run_le (p : ℤ → Bool) (start : ℤ) (N : ℕ) (n : ℕ) (e : ℤ)
    (hn : 0 < n) (he : start + n ≤ e + 1) (heN : e < start + N)
    (hall : ∀ j : ℕ, j < n → p (e - j) = true) :
    n ≤ (lsFold p (dayRange start N) (0, 0)).1 := by
  have hA : ∃ A : ℕ, start + A = e + 1 - n ∧ A + n ≤ N := by
    refine ⟨(e + 1 - n - start).toNat, by omega, by omega⟩
  obtain ⟨A, hA1, hA2⟩ := hA
  have hsplit : N = A + n + (N - A - n) := by omega
  rw [hsplit, dayRange_append, dayRange_append, lsFold_append, lsFold_append]
  have hrun : ∀ d ∈ dayRange (start + A) n, p d = true := by
    intro d hd
    rw [mem_dayRange] at hd
    have hj : ((e - d).toNat : ℤ) = e - d := by omega
    have := hall (e - d).toNat (by omega)
    rw [show e - ((e - d).toNat : ℤ) = d from by omega] at this
    exact this
  set s1 := lsFold p (dayRange start A) (0, 0) with hs1
  obtain ⟨mx, cur⟩ := s1
  rw [lsFold_all_pos p _ mx cur hrun]
  have hlen : (dayRange (start + A) n).length ≠ 0 := by
    simp [dayRange]
    omega
  rw [if_neg hlen]
  refine le_trans ?_ (lsFold_fst_le _ _ _)
  have hlen2 : (dayRange (start + (A : ℤ)) n).length = n := by simp [dayRange]
  simp only [hlen2]
  omega

theorem calcNegAux_run (c today : ℤ) (logs : List ℤ) :
    ∀ j : ℕ, j < calcNegAux c today logs 0 366 →
      c ≤ today - (j : ℤ) ∧ today - (j : ℤ) ∉ logs := by
  intro j hj
  have h := calcNegAux_spec c today logs 366 0 j hj
  simpa using h

theorem calcPosAux_run (c today : ℤ) (logs : List ℤ) :
    ∀ j : ℕ, j < calcPosAux c today logs 1 364 →
      c ≤ today - (1 + (j : ℤ)) ∧ today - (1 + (j : ℤ)) ∈ logs := by
  intro j hj
  have h := calcPosAux_spec c today logs 364 1 (le_refl 1) j hj
  simpa using h

theorem current_le_longest (t : HabitType) (c today : ℤ) (logs : List ℤ) :
    calculateStreak t c today logs ≤ longestStreakCalc t c today logs := by
  cases t with
  | negative =>
    simp only [calculateStreak, longestStreakCalc]
    rcases Nat.eq_zero_or_pos (calcNegAux c today logs 0 366) with h0 | hpos
    · rw [h0]; exact Nat.zero_le _
    · have hspec := calcNegAux_run c today logs
      have hct : c ≤ today := by
        have := (hspec 0 hpos).1
        omega
      have hcs : c + (calcNegAux c today logs 0 366 : ℤ) ≤ today + 1 := by
        have := (hspec (calcNegAux c today logs 0 366 - 1) (by omega)).1
        omega
      refine lsFold_run_le _ c _ _ today hpos hcs (by omega) ?_
      intro j hj
      have hmem := (hspec j hj).2
      simp [succDay, hmem]
  | positive =>
    simp only [calculateStreak, longestStreakCalc]
    rw [show (365 : ℕ) = 364 + 1 from rfl, calcPosAux]
    simp only [Nat.cast_zero, sub_zero, Nat.zero_add, zero_add]
    by_cases hc : today < c
    · rw [if_pos hc]
      exact Nat.zero_le _
    · rw [if_neg hc]
      by_cases hmem : today ∈ logs
      · rw [if_pos hmem]
        have hspec := calcPosAux_run c today logs
        have hall : ∀ j : ℕ, j < 1 + calcPosAux c today logs 1 364 →
            c ≤ today - (j : ℤ) ∧ today - (j : ℤ) ∈ logs := by
          intro j hj
          match j with
          | 0 => exact ⟨by simpa using hc, by simpa using hmem⟩
          | j' + 1 =>
            have h := hspec j' (by omega)
            have harg : today - ((j' + 1 : ℕ) : ℤ) = today - (1 + (j' : ℤ)) := by
              push_cast; ring
            rw [harg]
            exact h
        have hcs : c + ((1 + calcPosAux c today logs 1 364 : ℕ) : ℤ) ≤ today + 1 := by
          have := (hall (calcPosAux c today logs 1 364) (by omega)).1
          push_cast
          omega
        refine lsFold_run_le _ c _ _ today (by omega) hcs (by omega) ?_
        intro j hj
        have h := (hall j hj).2
        simp [succDay, h]
      · rw [if_neg hmem, if_neg (lt_irrefl 0)]
        rcases Nat.eq_zero_or_pos (calcPosAux c today logs 1 364) with h0 | hpos
        · rw [h0]; exact Nat.zero_le _
        · have hspec := calcPosAux_run c today logs
          have hct : c ≤ today - 1 := by
            have := (hspec 0 hpos).1
            omega
          have hcs : c + (calcPosAux c today logs 1 364 : ℤ) ≤ (today - 1) + 1 := by
            have := (hspec (calcPosAux c today logs 1 364 - 1) (by omega)).1
            omega
          refine lsFold_run_le _ c _ _ (today - 1) hpos hcs (by omega) ?_
          intro j hj
          have h := (hspec j hj).2
          have harg : today - 1 - (j : ℤ) = today - (1 + (j : ℤ)) := by ring
          rw [harg]
          simp [succDay, h]

theorem consecRunAux_le_fuel (logs : List ℤ) :
    ∀ fuel (d : ℤ), consecRunAux logs d fuel ≤ fuel := by
  intro fuel
  induction fuel with
  | zero => intro d; simp [consecRunAux]
  | succ f ih =>
    intro d
    rw [consecRunAux]
    split
    · have := ih (d - 1); omega
    · omega

theorem consecRunAux_mem (logs : List ℤ) :
    ∀ fuel (d : ℤ) (j : ℕ), j < consecRunAux logs d fuel → d - (j : ℤ) ∈ logs := by
  intro fuel
  induction fuel with
  | zero => intro d j h; simp [consecRunAux] at h
  | succ f ih =>
    intro d j h
    rw [consecRunAux] at h
    split at h
    · rename_i hd
      match j with
      | 0 => simpa using hd
      | j' + 1 =>
        have hrec := ih (d - 1) j' (by omega)
        have harg : d - ((j' + 1 : ℕ) : ℤ) = d - 1 - (j' : ℤ) := by push_cast; ring
        rw [harg]
        exact hrec
    · omega

theorem consecRunAux_stops (logs : List ℤ) :
    ∀ fuel (d : ℤ), consecRunAux logs d fuel < fuel →
      d - (consecRunAux logs d fuel : ℤ) ∉ logs := by
  intro fuel
  induction fuel with
  | zero => intro d h; omega
  | succ f ih =>
    intro d h
    by_cases hd : d ∈ logs
    · simp only [consecRunAux, if_pos hd] at h ⊢
      have hrec := ih (d - 1) (by omega)
      have harg : d - ((1 + consecRunAux logs (d - 1) f : ℕ) : ℤ) =
          d - 1 - (consecRunAux logs (d - 1) f : ℤ) := by push_cast; ring
      rw [harg]
      exact hrec
    · simp only [consecRunAux, if_neg hd] at h ⊢
      simpa using hd

/-- Pigeonhole: among the `logs.length + 1` days `d, d-1, …, d-logs.length`
at least one is unlogged, so the store's backward walk always stops. -/
theorem exists_gap (logs : List ℤ) (d : ℤ) :
    ∃ k : ℕ, k ≤ logs.length ∧ d - (k : ℤ) ∉ logs := by
  by_contra hcon
  push_neg at hcon
  have hmap : ∀ a ∈ (Finset.univ : Finset (Fin (logs.length + 1))),
      (fun k : Fin (logs.length + 1) => d - ((k : ℕ) : ℤ)) a ∈ logs.toFinset := by
    intro a _
    exact List.mem_toFinset.mpr (hcon a (by omega))
  have hinj : Set.InjOn (fun k : Fin (logs.length + 1) => d - ((k : ℕ) : ℤ))
      (Finset.univ : Finset (Fin (logs.length + 1))) := by
    intro a _ b _ hab
    have hab' : d - ((a : ℕ) : ℤ) = d - ((b : ℕ) : ℤ) := hab
    have : (a : ℕ) = (b : ℕ) := by omega
    exact Fin.ext this
  have hcard := Finset.card_le_card_of_injOn _ hmap hinj
  rw [Finset.card_univ, Fintype.card_fin] at hcard
  have := logs.toFinset_card_le
  omega

theorem consecRunAux_eq_takeWhile (logs : List ℤ) :
    ∀ fuel (d : ℤ), consecRunAux logs d fuel =
      ((List.range fuel).takeWhile fun (k : ℕ) => decide ((d - (k : ℤ)) ∈ logs)).length := by
  intro fuel
  induction fuel with
  | zero => intro d; simp [consecRunAux]
  | succ f ih =>
    intro d
    rw [consecRunAux, List.range_succ_eq_map]
    by_cases hd : d ∈ logs
    · rw [if_pos hd, List.takeWhile_cons_of_pos (by simpa using hd), List.length_cons,
        List.takeWhile_map]
      have hpred : ((fun (k : ℕ) => decide ((d - (k : ℤ)) ∈ logs)) ∘ Nat.succ) =
          fun (k : ℕ) => decide ((d - 1 - (k : ℤ)) ∈ logs) := by
        funext k
        simp only [Function.comp_apply]
        have harg : d - ((Nat.succ k : ℕ) : ℤ) = d - 1 - (k : ℤ) := by push_cast; ring
        rw [harg]
      rw [hpred, List.length_map, ← ih (d - 1)]
      omega
    · rw [if_neg hd, List.takeWhile_cons_of_neg (by simpa using hd)]
      simp

/-- The store's walk with its chosen fuel computes exactly the
consecutive-logged-run length. -/
theorem consecRun_full (logs : List ℤ) (d : ℤ) :
    consecRunAux logs d (logs.length + 1) = runLen logs d := by
  rw [consecRunAux_eq_takeWhile]
  rfl

theorem runLen_le_length (logs : List ℤ) (d : ℤ) : runLen logs d ≤ logs.length := by
  rw [← consecRun_full]
  obtain ⟨k, hk, hnot⟩ := exists_gap logs d
  by_contra hgt
  push_neg at hgt
  exact hnot (consecRunAux_mem logs (logs.length + 1) d k (by omega))

theorem runLen_mem (logs : List ℤ) (d : ℤ) :
    ∀ j : ℕ, j < runLen logs d → d - (j : ℤ) ∈ logs := by
  intro j hj
  rw [← consecRun_full] at hj
  exact consecRunAux_mem logs _ d j hj

theorem runLen_stops (logs : List ℤ) (d : ℤ) : d - (runLen logs d : ℤ) ∉ logs := by
  rw [← consecRun_full]
  exact consecRunAux_stops logs _ d (by
    have := runLen_le_length logs d
    rw [← consecRun_full] at this
    omega)

/-- Uniqueness: the run length is determined by "all shorter offsets are
logged and the next one is not". -/
theorem runLen_eq_of (logs : List ℤ) (d : ℤ) (n : ℕ)
    (hmem : ∀ j : ℕ, j < n → d - (j : ℤ) ∈ logs) (hstop : d - (n : ℤ) ∉ logs) :
    runLen logs d = n := by
  rcases lt_trichotomy (runLen logs d) n with h | h | h
  · exact absurd (hmem _ h) (runLen_stops logs d)
  · exact h
  · exact absurd (runLen_mem logs d n h) hstop

theorem consecRunAux_stable (logs : List ℤ) :
    ∀ fuel (d : ℤ), (∃ j : ℕ, j < fuel ∧ d - (j : ℤ) ∉ logs) →
      ∀ extra : ℕ, consecRunAux logs d (fuel + extra) = consecRunAux logs d fuel := by
  intro fuel
  induction fuel with
  | zero =>
    rintro d ⟨j, hj, _⟩
    omega
  | succ f ih =>
    rintro d ⟨j, hj, hnot⟩ extra
    by_cases hd : d ∈ logs
    · have hj0 : j ≠ 0 := by
        rintro rfl
        simp at hnot
        exact hnot hd
      obtain ⟨j', rfl⟩ : ∃ j', j = j' + 1 := ⟨j - 1, by omega⟩
      have hnot' : d - 1 - (j' : ℤ) ∉ logs := by
        have harg : d - ((j' + 1 : ℕ) : ℤ) = d - 1 - (j' : ℤ) := by push_cast; ring
        rwa [harg] at hnot
      have hrec := ih (d - 1) ⟨j', by omega, hnot'⟩ extra
      rw [show f + 1 + extra = (f + extra) + 1 from by omega]
      rw [consecRunAux, consecRunAux, if_pos hd, if_pos hd, hrec]
    · rw [show f + 1 + extra = (f + extra) + 1 from by omega]
      rw [consecRunAux, consecRunAux, if_neg hd, if_neg hd]

/-- `storeCurrentStreak` in terms of the run length. -/
theorem storeCurrentStreak_eq (logs : List ℤ) (today : ℤ) :
    storeCurrentStreak logs today =
      if today ∈ logs then runLen logs today
      else if today - 1 ∈ logs then runLen logs (today - 1)
      else 0 := by
  unfold storeCurrentStreak
  by_cases h1 : today ∈ logs
  · simp [h1, consecRun_full]
  · by_cases h2 : today - 1 ∈ logs <;> simp [h1, h2, consecRun_full]

theorem dayRange_succ (a : ℤ) (n : ℕ) : dayRange a (n + 1) = a :: dayRange (a + 1) n := by
  simp only [dayRange, List.range_succ_eq_map, List.map_cons, List.map_map, Nat.cast_zero,
    add_zero]
  congr 1
  refine List.map_congr_left fun i _ => ?_
  simp only [Function.comp_apply]
  push_cast
  ring

/-- The store streak of a habit whose logs are exactly the interval of `n`
days ending today is `n`, however large `n` is. -/
theorem storeStreak_dayRange (a : ℤ) (n : ℕ) (hn : 0 < n) (e : ℤ) (he : e = a + n - 1) :
    storeCurrentStreak (dayRange a n) e = n := by
  have hmem : e ∈ dayRange a n := mem_dayRange.mpr ⟨by omega, by omega⟩
  unfold storeCurrentStreak
  rw [if_pos hmem, consecRun_full]
  refine runLen_eq_of _ _ n (fun j hj => mem_dayRange.mpr ⟨by omega, by omega⟩) ?_
  intro hmem2
  rw [mem_dayRange] at hmem2
  omega

theorem calcPosAux_nil (c t : ℤ) : ∀ fuel i, calcPosAux c t [] i fuel = 0 := by
  intro fuel
  induction fuel with
  | zero => intro i; simp [calcPosAux]
  | succ f ih =>
    intro i
    rw [calcPosAux]
    split
    · rfl
    split
    · simp_all
    split
    · rfl
    · exact ih (i + 1)

theorem lsFold_all_neg (p : ℤ → Bool) :
    ∀ (days : List ℤ) (mx cur : ℕ), (∀ d ∈ days, p d = false) →
      (lsFold p days (mx, cur)).1 = mx := by
  intro days
  induction days with
  | nil => intro mx cur _; simp [lsFold]
  | cons d ds ih =>
    intro mx cur h
    have hd : p d = false := h d (by simp)
    have hstep : lsFold p (d :: ds) (mx, cur) = lsFold p ds (mx, 0) := by
      simp [lsFold, lsStep, hd]
    rw [hstep, ih _ _ fun x hx => h x (by simp [hx])]

theorem calcNegAux_congr (c t : ℤ) (logs logs' : List ℤ)
    (h : ∀ d : ℤ, c ≤ d → (d ∈ logs ↔ d ∈ logs')) :
    ∀ fuel i, calcNegAux c t logs i fuel = calcNegAux c t logs' i fuel := by
  intro fuel
  induction fuel with
  | zero => intro i; simp [calcNegAux]
  | succ f ih =>
    intro i
    rw [calcNegAux, calcNegAux]
    by_cases hlt : t - (i : ℤ) < c
    · rw [if_pos hlt, if_pos hlt]
    · rw [if_neg hlt, if_neg hlt]
      by_cases hmem : t - (i : ℤ) ∈ logs
      · rw [if_pos hmem, if_pos ((h _ (by omega)).mp hmem)]
      · rw [if_neg hmem, if_neg fun hx => hmem ((h _ (by omega)).mpr hx), ih]

theorem calcPosAux_congr (c t : ℤ) (logs logs' : List ℤ)
    (h : ∀ d : ℤ, c ≤ d → (d ∈ logs ↔ d ∈ logs')) :
    ∀ fuel i, calcPosAux c t logs i fuel = calcPosAux c t logs' i fuel := by
  intro fuel
  induction fuel with
  | zero => intro i; simp [calcPosAux]
  | succ f ih =>
    intro i
    rw [calcPosAux, calcPosAux]
    by_cases hlt : t - (i : ℤ) < c
    · rw [if_pos hlt, if_pos hlt]
    · rw [if_neg hlt, if_neg hlt]
      by_cases hmem : t - (i : ℤ) ∈ logs
      · rw [if_pos hmem, if_pos ((h _ (by omega)).mp hmem), ih]
      · rw [if_neg hmem, if_neg fun hx => hmem ((h _ (by omega)).mpr hx)]
        by_cases hi : 0 < i
        · rw [if_pos hi, if_pos hi]
        · rw [if_neg hi, if_neg hi, ih]

theorem lsFold_congr (p q : ℤ → Bool) :
    ∀ (days : List ℤ) (s : ℕ × ℕ), (∀ d ∈ days, p d = q d) →
      lsFold p days s = lsFold q days s := by
  intro days
  induction days with
  | nil => intro s _; simp [lsFold]
  | cons d ds ih =>
    intro s h
    have hd : p d = q d := h d (by simp)
    have h1 : lsFold p (d :: ds) s = lsFold p ds (lsStep p s d) := by simp [lsFold]
    have h2 : lsFold q (d :: ds) s = lsFold q ds (lsStep q s d) := by simp [lsFold]
    rw [h1, h2, show lsStep p s d = lsStep q s d from by simp [lsStep, hd],
      ih _ fun x hx => h x (by simp [hx])]

theorem succDay_cons_ne (t : HabitType) (x : ℤ) (logs : List ℤ) (d : ℤ) (hxd : d ≠ x) :
    succDay t (x :: logs) d = succDay t logs d := by
  cases t <;> simp [succDay, List.mem_cons, hxd]

theorem logsInPeriod_cons_before (c t : ℤ) (logs : List ℤ) :
    logsInPeriod c t ((c - 1) :: logs) = logsInPeriod c t logs := by
  unfold logsInPeriod
  rw [List.filter_cons_of_neg]
  have h := effectiveStart_ge c t
  simp only [Bool.and_eq_true, decide_eq_true_eq, not_and]
  intro h1
  omega

theorem consistency_cons_before (ty : HabitType) (c t : ℤ) (logs : List ℤ) :
    consistencyScoreStore ty c t ((c - 1) :: logs) = consistencyScoreStore ty c t logs := by
  cases ty <;> simp [consistencyScoreStore, logsInPeriod_cons_before]

theorem calcNegAux_skew (c t : ℤ) (logs : List ℤ) (h : t < c) :
    calcNegAux c t logs 0 366 = 0 := by
  rw [show (366 : ℕ) = 365 + 1 from rfl, calcNegAux, if_pos (by simpa using h)]

theorem calcPosAux_skew (c t : ℤ) (logs : List ℤ) (h : t < c) :
    calcPosAux c t logs 0 365 = 0 := by
  rw [show (365 : ℕ) = 364 + 1 from rfl, calcPosAux, if_pos (by simpa using h)]

theorem longest_skew (ty : HabitType) (c t : ℤ) (logs : List ℤ) (h : t < c) :
    longestStreakCalc ty c t logs = 0 := by
  have h0 : (t - c + 1).toNat = 0 := by omega
  simp [longestStreakCalc, h0, dayRange, lsFold]

theorem periodDays_skew (c t : ℤ) (h : t < c) : periodDays c t = 1 := by
  unfold periodDays
  omega

theorem logsInPeriod_skew (c t : ℤ) (logs : List ℤ) (h : t < c) :
    logsInPeriod c t logs = 0 := by
  unfold logsInPeriod
  have heff : effectiveStart c t = c := by
    have hps : periodStart c t = t := by
      unfold periodStart
      rw [periodDays_skew c t h]
      omega
    unfold effectiveStart
    rw [hps, if_pos h]
  rw [List.length_eq_zero]
  refine List.filter_eq_nil_iff.mpr fun a _ => ?_
  rw [heff]
  simp only [Bool.and_eq_true, decide_eq_true_eq, not_and]
  intro h1
  omega

theorem effectiveStart_eq_max (c t : ℤ) :
    effectiveStart c t = max c (periodStart c t) := by
  unfold effectiveStart
  split <;> omega

/-! ## Claim theorems -/

/-- C1 (counterexample): a negative habit created 366 days before today
with no logs gets `currentStreak = 366`, not `daysSince + 1 = 367` — the
365-day cap of the backward walk truncates the claimed value. -/
theorem c1_counterexample :
    calculateStreak .negative 0 366 [] = 366 ∧ (366 : ℕ) ≠ 366 + 1 := by
  constructor
  · simp only [calculateStreak]
    rw [calcNegAux_empty 0 366 366 0]
    decide
  · decide

/-- C1 (amended): for a negative habit with no logs at all and
`creationDay ≤ today`, `currentStreak = min (daysSince + 1) 366` (the
claimed `daysSince + 1`, truncated by the 365-day cap of the walk) and
`consistencyScore = 100`. -/
theorem c1_negative_no_logs (creation today : ℤ) (h : creation ≤ today) :
    calculateStreak .negative creation today [] =
      min ((today - creation + 1).toNat) 366 ∧
    consistencyScoreStore .negative creation today [] = 100 := by
  constructor
  · simp only [calculateStreak]
    rw [calcNegAux_empty creation today 366 0]
    simp only [Nat.cast_zero, sub_zero]
    omega
  · have hpd := periodDays_pos creation today
    simp only [consistencyScoreStore, show logsInPeriod creation today [] = 0 from rfl,
      Nat.cast_zero, sub_zero]
    exact jsRound_eq _ _ 100 (by omega) (by omega) (by omega)

/-- C1 (witness): creation day 0, today 5, no logs — streak 6, score 100. -/
theorem c1_negative_no_logs_witness :
    (0 : ℤ) ≤ 5 ∧
      (calculateStreak .negative 0 5 [] = min ((5 - 0 + 1 : ℤ)).toNat 366 ∧
       consistencyScoreStore .negative 0 5 [] = 100) :=
  ⟨by decide, c1_negative_no_logs 0 5 (by decide)⟩

/-- C2 (counterexample): with creation day 100 and today 100, a log dated
99 = creationDay - 1 changes the rolling-average series (`chartData`
ignores the creation boundary), and also changes the store's current
streak (99 :: today's log extends the store walk past creation). -/
theorem c2_counterexample :
    chartData 30 100 [99] ≠ chartData 30 100 [] ∧ (99 : ℤ) = 100 - 1 ∧
    storeCurrentStreak [100, 99] 100 = 2 ∧ storeCurrentStreak [100] 100 = 1 := by
  refine ⟨?_, by norm_num, by decide, by decide⟩
  intro heq
  have hval := congrArg (fun l : List ℚ => l.getD 29 0) heq
  simp only [chartData, List.getD_eq_getElem?_getD, List.getElem?_map, List.getElem?_range,
    Nat.reduceLT, if_true] at hval
  norm_num at hval
  exact hval 1 (by norm_num) (by norm_num)

/-- C2 (amended): a log dated exactly `creationDay` is eligible (the
calendar enables it whenever it is not in the future, and the detail
streak counts it), and a log dated `creationDay - 1` never changes the
detail-screen `currentStreak`, `longestStreak`, `consistencyScore`, or the
calendar classification; it can however change `chartData` (the rolling
averages ignore the creation boundary) and the store's `currentStreak`. -/
theorem c2_creation_boundary :
    (∀ (t : HabitType) (creation today : ℤ) (logs : List ℤ),
      calculateStreak t creation today ((creation - 1) :: logs) =
        calculateStreak t creation today logs) ∧
    (∀ (t : HabitType) (creation today : ℤ) (logs : List ℤ),
      longestStreakCalc t creation today ((creation - 1) :: logs) =
        longestStreakCalc t creation today logs) ∧
    (∀ (t : HabitType) (creation today : ℤ) (logs : List ℤ),
      consistencyScoreStore t creation today ((creation - 1) :: logs) =
        consistencyScoreStore t creation today logs) ∧
    (∀ (t : HabitType) (creation today d : ℤ) (logs : List ℤ),
      classifyDay t creation today d ((creation - 1) :: logs) =
        classifyDay t creation today d logs) ∧
    (∀ creation today : ℤ, canToggleDay creation today creation = decide (creation ≤ today)) ∧
    (∀ creation : ℤ, calculateStreak .positive creation creation [creation] = 1) := by
  have hiff : ∀ (c : ℤ) (logs : List ℤ) (d : ℤ), c ≤ d →
      (d ∈ (c - 1) :: logs ↔ d ∈ logs) := by
    intro c logs d hd
    simp only [List.mem_cons]
    constructor
    · rintro (rfl | hmem)
      · omega
      · exact hmem
    · exact fun hmem => Or.inr hmem
  refine ⟨?_, ?_, ?_, ?_, ?_, ?_⟩
  · intro t c today logs
    cases t with
    | positive => exact calcPosAux_congr c today _ _ (hiff c logs) 365 0
    | negative => exact calcNegAux_congr c today _ _ (hiff c logs) 366 0
  · intro t c today logs
    simp only [longestStreakCalc]
    rw [lsFold_congr _ _ _ _ fun d hd => succDay_cons_ne t (c - 1) logs d (by
      rw [mem_dayRange] at hd
      omega)]
  · intro t c today logs
    exact consistency_cons_before t c today logs
  · intro t c today d logs
    unfold classifyDay
    by_cases hdis : d < c ∨ today < d
    · rw [if_pos hdis, if_pos hdis]
    · rw [if_neg hdis, if_neg hdis]
      push_neg at hdis
      have hne : d ≠ c - 1 := by omega
      have hif : (d ∈ (c - 1) :: logs) = (d ∈ logs) := by
        simp [List.mem_cons, hne]
      cases t <;> simp only [hif]
  · intro c today
    by_cases h : c ≤ today
    · simp [canToggleDay, h, not_lt.mpr h]
    · simp [canToggleDay, h, not_le.mp h]
  · intro c
    simp only [calculateStreak]
    rw [show (365 : ℕ) = 364 + 1 from rfl, calcPosAux,
      if_neg (show ¬(c - ((0 : ℕ) : ℤ) < c) from by simp),
      if_pos (show c - ((0 : ℕ) : ℤ) ∈ [c] from by simp),
      show (364 : ℕ) = 363 + 1 from rfl, calcPosAux,
      if_pos (show c - ((0 + 1 : ℕ) : ℤ) < c from by push_cast; omega)]

/-- C3 (counterexample): with today = 400 and logs on every day of the
interval 34..400 (367 consecutive days), the store's current streak is
367; removing the log dated 34 = today - 366 drops it to 366 — so a day
more than 365 days before today contributes at the store call site. -/
theorem c3_counterexample :
    storeCurrentStreak (dayRange 34 367) 400 = 367 ∧
    storeCurrentStreak (dayRange 35 366) 400 = 366 ∧
    dayRange 34 367 = 34 :: dayRange 35 366 ∧
    (34 : ℤ) = 400 - 366 ∧
    ¬(367 : ℕ) ≤ 366 := by
  refine ⟨storeStreak_dayRange 34 367 (by norm_num) 400 (by norm_num),
    storeStreak_dayRange 35 366 (by norm_num) 400 (by norm_num), ?_, by norm_num, by norm_num⟩
  rw [show (367 : ℕ) = 366 + 1 from rfl, dayRange_succ]
  norm_num

/-- C3 (amended): the detail-screen walk is capped — its streak never
exceeds 366 (it visits at most days today-365 .. today); the store's walk
has no such cap but always terminates: its result is unchanged by any
extra fuel beyond `logs.length + 1` steps, and its streak is bounded by
the number of logs. -/
theorem c3_walk_bounds :
    (∀ (t : HabitType) (creation today : ℤ) (logs : List ℤ),
      calculateStreak t creation today logs ≤ 366) ∧
    (∀ (logs : List ℤ) (d : ℤ) (extra : ℕ),
      consecRunAux logs d (logs.length + 1 + extra) =
        consecRunAux logs d (logs.length + 1)) ∧
    (∀ (logs : List ℤ) (today : ℤ), storeCurrentStreak logs today ≤ logs.length) := by
  refine ⟨?_, ?_, ?_⟩
  · intro t c today logs
    cases t with
    | positive => exact le_trans (calcPosAux_le c today logs 365 0) (by norm_num)
    | negative => exact calcNegAux_le c today logs 366 0
  · intro logs d extra
    obtain ⟨k, hk, hnot⟩ := exists_gap logs d
    exact consecRunAux_stable logs (logs.length + 1) d ⟨k, by omega, hnot⟩ extra
  · intro logs today
    rw [storeCurrentStreak_eq]
    split
    · exact runLen_le_length logs today
    split
    · exact runLen_le_length logs (today - 1)
    · exact Nat.zero_le _

/-- C4: the store's `currentStreak` ignores the habit type and creation
day entirely, and equals the positive-habit rule: the consecutive-logged
run ending at today when today is logged, the run ending at yesterday when
only yesterday is logged, and 0 otherwise. -/
theorem c4_store_streak_positive_rule :
    ∀ (t t' : HabitType) (creation creation' today : ℤ) (logs : List ℤ),
      (getHabitDetailsCompute t creation today logs).currentStreak =
        (getHabitDetailsCompute t' creation' today logs).currentStreak ∧
      (getHabitDetailsCompute t creation today logs).currentStreak =
        (if today ∈ logs then runLen logs today
         else if today - 1 ∈ logs then runLen logs (today - 1)
         else 0) := by
  intro t t' c c' today logs
  exact ⟨rfl, storeCurrentStreak_eq logs today⟩

/-- C5: for every habit type, creation day, today, and log set, the
longest streak of the detail screen is at least its current streak. -/
theorem c5_longest_ge_current :
    ∀ (t : HabitType) (creation today : ℤ) (logs : List ℤ),
      longestStreakCalc t creation today logs ≥ calculateStreak t creation today logs :=
  fun t c today logs => current_le_longest t c today logs

/-- C6 (counterexample): under clock skew (today 0 strictly before
creation day 1), a negative habit's consistency score is 100, not 0 —
the clamped one-day window counts as fully abstinent. -/
theorem c6_counterexample :
    consistencyScoreStore .negative 1 0 [] = 100 ∧ (100 : ℤ) ≠ 0 := by
  constructor
  · decide
  · decide

/-- C6 (amended): when today is strictly before the creation day nothing
throws: the detail-screen `currentStreak` and `longestStreak` are 0 and
the positive consistency score is 0, but the negative consistency score
is 100 (not 0) because the window is clamped to one fully-abstinent day. -/
theorem c6_clock_skew (ty : HabitType) (creation today : ℤ) (logs : List ℤ)
    (h : today < creation) :
    calculateStreak ty creation today logs = 0 ∧
    longestStreakCalc ty creation today logs = 0 ∧
    consistencyScoreStore .positive creation today logs = 0 ∧
    consistencyScoreStore .negative creation today logs = 100 := by
  refine ⟨?_, longest_skew ty creation today logs h, ?_, ?_⟩
  · cases ty with
    | positive => exact calcPosAux_skew creation today logs h
    | negative => exact calcNegAux_skew creation today logs h
  · simp only [consistencyScoreStore, logsInPeriod_skew creation today logs h,
      periodDays_skew creation today h]
    decide
  · simp only [consistencyScoreStore, logsInPeriod_skew creation today logs h,
      periodDays_skew creation today h]
    decide

/-- C6 (witness): creation day 1, today 0, no logs. -/
theorem c6_clock_skew_witness :
    (0 : ℤ) < 1 ∧
      (calculateStreak .negative 1 0 [] = 0 ∧
       longestStreakCalc .negative 1 0 [] = 0 ∧
       consistencyScoreStore .positive 1 0 [] = 0 ∧
       consistencyScoreStore .negative 1 0 [] = 100) :=
  ⟨by decide, c6_clock_skew .negative 1 0 [] (by decide)⟩

/-- C7 (counterexample): when the fetch fails, `getHabitDetails` returns
the defaulted all-zero result — an ordinary value, not an error — and
`getHabitsWithSparkline` returns the empty list. -/
theorem c7_counterexample :
    getHabitDetails (Except.error "store unavailable") .positive 0 10 =
      { logs := [], currentStreak := 0, consistencyScore := 0, totalCompletions := 0 } ∧
    getHabitsWithSparkline (Except.error "store unavailable") 0 10 = [] :=
  ⟨rfl, rfl⟩

/-- C7 (amended): a data-access failure does not propagate: the store
catches it and substitutes a defaulted computation result (empty logs and
all-zero statistics) in `getHabitDetails`, and the empty list in
`getHabitsWithSparkline`; only a successful fetch yields the computed
statistics. -/
theorem c7_error_swallowed :
    ∀ (msg : String) (t : HabitType) (creation today : ℤ),
      getHabitDetails (Except.error msg) t creation today =
        { logs := [], currentStreak := 0, consistencyScore := 0, totalCompletions := 0 } ∧
      getHabitsWithSparkline (Except.error msg) creation today = [] ∧
      ∀ logs : List ℤ,
        getHabitDetails (Except.ok logs) t creation today =
          getHabitDetailsCompute t creation today logs :=
  fun _ _ _ _ => ⟨rfl, rfl, fun _ => rfl⟩

/-- C8 (counterexample): for a habit created 10 days before today the
denominator is `min(30, max(1, 10 + 1)) = 11`, not 10, and 5 logged days
give `round(500/11) = 45`, not 50. -/
theorem c8_counterexample :
    periodDays 0 10 = 11 ∧ (11 : ℤ) ≠ 10 ∧
    consistencyScoreStore .positive 0 10 [6, 7, 8, 9, 10] = 45 ∧ (45 : ℤ) ≠ 50 := by
  refine ⟨by decide, by decide, by decide, by decide⟩

/-- C8 (amended): the denominator is
`periodDays = min(30, max(1, daysSince + 1))`, the window starts at
`max creationDay periodStart`, and the positive score is
`round(100 * logsInPeriod / periodDays)`; the spec's scenario holds for a
habit created 9 days before today (10 days of existence: periodDays 10,
5 logged days → 50), while a habit created 10 days before today has
periodDays 11 and score 45. -/
theorem c8_consistency_formula :
    (∀ creation today : ℤ,
      periodDays creation today = min 30 (max 1 (today - creation + 1))) ∧
    (∀ creation today : ℤ,
      effectiveStart creation today = max creation (periodStart creation today)) ∧
    (∀ (creation today : ℤ) (logs : List ℤ),
      consistencyScoreStore .positive creation today logs =
        jsRound (100 * (logsInPeriod creation today logs : ℤ)) (periodDays creation today)) ∧
    periodDays 0 9 = 10 ∧
    consistencyScoreStore .positive 0 9 [5, 6, 7, 8, 9] = 50 ∧
    periodDays 0 10 = 11 ∧
    consistencyScoreStore .positive 0 10 [6, 7, 8, 9, 10] = 45 := by
  refine ⟨fun _ _ => rfl, effectiveStart_eq_max, ?_, by decide, by decide, by decide, by decide⟩
  intro c t logs
  simp only [consistencyScoreStore]
  rw [mul_comm]

/-- C9: toggling a day on and then off again restores the log table
exactly, and with it the per-habit log days and every derived statistic
(streaks, consistency, completions, sparkline). -/
theorem c9_toggle_roundtrip (logs : List LogEntry) (h : ℕ) (d : ℤ) (id₁ id₂ : ℕ)
    (habsent : ∀ l ∈ logs, logMatches h d l = false) :
    toggleHabit (toggleHabit logs h d id₁) h d id₂ = logs ∧
    (∀ hid : ℕ,
      logDaysOf (toggleHabit (toggleHabit logs h d id₁) h d id₂) hid = logDaysOf logs hid) ∧
    (∀ (t : HabitType) (creation today : ℤ),
      getHabitDetailsCompute t creation today
          (logDaysOf (toggleHabit (toggleHabit logs h d id₁) h d id₂) h) =
        getHabitDetailsCompute t creation today (logDaysOf logs h)) ∧
    (∀ creation today : ℤ,
      sparkline creation today
          (logDaysOf (toggleHabit (toggleHabit logs h d id₁) h d id₂) h) =
        sparkline creation today (logDaysOf logs h)) := by
  have hany : logs.any (logMatches h d) = false :=
    List.any_eq_false.mpr fun x hx => by rw [habsent x hx]; exact Bool.false_ne_true
  have hx : logMatches h d ⟨id₁, h, d⟩ = true := by simp [logMatches]
  have h1 : toggleHabit logs h d id₁ = logs ++ [⟨id₁, h, d⟩] := by
    unfold toggleHabit
    rw [if_neg (by simp [hany])]
  have h2 : toggleHabit (logs ++ [⟨id₁, h, d⟩]) h d id₂ = logs := by
    unfold toggleHabit
    rw [if_pos (by simp [List.any_append, hany, logMatches]),
      List.eraseP_append_right _ fun b hb => by simp [habsent b hb],
      List.eraseP_cons_of_pos hx]
    simp
  have heq : toggleHabit (toggleHabit logs h d id₁) h d id₂ = logs := by
    rw [h1]
    exact h2
  exact ⟨heq, fun hid => by rw [heq], fun t c today => by rw [heq], fun c today => by rw [heq]⟩

/-- C9 (witness): empty log table, habit 0, day 0. -/
theorem c9_toggle_roundtrip_witness :
    (∀ l ∈ ([] : List LogEntry), logMatches 0 0 l = false) ∧
    toggleHabit (toggleHabit [] 0 0 1) 0 0 2 = [] :=
  ⟨by simp, (c9_toggle_roundtrip [] 0 0 1 2 (by simp)).1⟩

/-- C10: a positive habit with no logs has current streak 0, longest
streak 0, and consistency score 0. -/
theorem c10_positive_no_logs :
    ∀ creation today : ℤ,
      calculateStreak .positive creation today [] = 0 ∧
      longestStreakCalc .positive creation today [] = 0 ∧
      consistencyScoreStore .positive creation today [] = 0 := by
  intro c t
  refine ⟨?_, ?_, ?_⟩
  · exact calcPosAux_nil c t 365 0
  · simp only [longestStreakCalc]
    apply lsFold_all_neg
    intro d _
    simp [succDay]
  · have hpd := periodDays_pos c t
    simp only [consistencyScoreStore, show logsInPeriod c t [] = 0 from rfl, Nat.cast_zero,
      zero_mul]
    exact jsRound_eq _ _ 0 (by omega) (by omega) (by omega)

end VoidTracker
